import Mathlib

/-!
Verification of the collation façade of `go/mysql/collations/uca.go`
(MySQL-compatible UCA string collation).

The façade functions (`Collate`, `WeightString`, `WeightStringLen` for the
modern `utf8mb4_uca_0900` variant and the legacy variant) are shallowly
embedded from the Go source.  The weight-table/iterator internals live in
`internal/uca`, which is not part of the sources here, so they are modelled
from the specification (§4.2-§4.4 of the spec): a collation maps an input
byte string to one list of 16-bit weights per comparison level, and the
iterator lazily emits those lists level by level, with a zero weight emitted
as level separator between consecutive levels.
-/

set_option maxHeartbeats 1000000

/-- A byte string, the raw input to the collation engine. -/
abbrev Str := List Nat

/-- Modelled from the spec: `PadToMax`, the "pad to capacity" sentinel value
for `WeightString`'s `numCodepoints` argument.  Its definition is in the
`collations` package outside the given sources; it is the maximum value of a
32-bit signed integer, in particular it is positive. -/
def PadToMax : Int := 2147483647

/-- Modelled from the spec: a Go byte slice, as a list of byte values plus a
capacity.  `append` beyond capacity reallocates; reallocation is modelled as
exact growth (the new capacity is exactly the new length), which matches Go
whenever the supplied capacity is not exceeded and abstracts the allocator's
size rounding otherwise. -/
structure GoSlice where
  data : List Nat
  cap : Nat
deriving DecidableEq, Repr

/-- Modelled from the spec: Go's `append` on byte slices.  Appending within
capacity keeps the capacity; appending beyond it grows to exactly the new
length. -/
def goAppend (s : GoSlice) (bs : List Nat) : GoSlice :=
  ⟨s.data ++ bs, max s.cap (s.data.length + bs.length)⟩

/-- High byte of a 16-bit weight, `byte(w >> 8)` in the Go source. -/
def hiByte (w : Nat) : Nat := w / 256 % 256

/-- Low byte of a 16-bit weight, `byte(w)` in the Go source. -/
def loByte (w : Nat) : Nat := w % 256

/-- The byte sequence a weight-emitting loop appends for a list of weights:
two bytes per weight, high byte first (`dst = append(dst, byte(w>>8), byte(w))`). -/
def weightBytes (ws : List Nat) : List Nat :=
  ws.flatMap (fun w => [hiByte w, loByte w])

/-- The Go loop `for { w, ok := it.Next(); if !ok break; dst = append(...) }`
over an already-determined weight sequence. -/
def emitWeights (s : GoSlice) (ws : List Nat) : GoSlice :=
  ws.foldl (fun d w => goAppend d [hiByte w, loByte w]) s

/-- Modelled from the spec (§3, §4.2): the `utf8mb4_uca_0900` collation.
The weight table, tailoring, contractions and reorder rules of
`internal/uca` are not in the given sources; their combined effect is
modelled as the function `weights`, giving for an input string and a level
index the (finite) list of meaningful 16-bit weights the iterator emits at
that level.  `maxCollationElementsPerCodepoint` models the constant
`uca.MaxCollationElementsPerCodepoint` used by `WeightStringLen`. -/
structure Collation_utf8mb4_uca_0900 where
  levelsForCompare : Nat
  maxCollationElementsPerCodepoint : Nat
  weights : Str → Nat → List Nat

/-- Modelled from the spec (§4.2): the state of a 900-variant weight
iterator.  `rem` is the remaining emission stream of `(weight, level)`
pairs, where the `level` component is the value `Level()` reports after that
weight has been returned by `Next()`; `lvl` is the current `Level()`;
`maxLevel` is the configured number of levels, which `Level()` reports once
the stream is exhausted. -/
structure Iterator900 where
  rem : List (Nat × Nat)
  lvl : Nat
  maxLevel : Nat
deriving DecidableEq, Repr

/-- Modelled from the spec (§4.2): the iterator's full emission stream for
one string.  For each level `i < levelsForCompare` it emits the meaningful
weights of level `i`, followed by a zero level-separator weight (tagged with
the new level `i+1`) whenever another level follows. -/
def levelStream (c : Collation_utf8mb4_uca_0900) (s : Str) : List (Nat × Nat) :=
  (List.range c.levelsForCompare).flatMap (fun i =>
    (c.weights s i).map (fun w => (w, i)) ++
      (if i + 1 < c.levelsForCompare then [(0, i + 1)] else []))

/-- Modelled from the spec (§4.2): `c.uca.Iterator(input)` — a fresh iterator
positioned at the start of the emission stream, at level 0. -/
def Collation_utf8mb4_uca_0900.Iterator (c : Collation_utf8mb4_uca_0900) (s : Str) : Iterator900 :=
  ⟨levelStream c s, 0, c.levelsForCompare⟩

/-- Modelled from the spec (§4.2): `Next() -> (weight, ok)`.  Returns the
next pending weight of the stream and advances `Level()` to that weight's
tag; once the stream is exhausted it returns `(0, false)` and `Level()`
reports the configured number of levels. -/
def itNext (it : Iterator900) : Nat × Bool × Iterator900 :=
  match it.rem with
  | [] => (0, false, ⟨[], it.maxLevel, it.maxLevel⟩)
  | (w, l) :: rest => (w, true, ⟨rest, l, it.maxLevel⟩)

/-- Modelled from the spec (§4.2): `SkipLevel() -> int`.  Skips the remaining
weights of the current level together with the following level-separator,
positioning the iterator at the start of the next level, and returns the new
level index. -/
def itSkipLevel (it : Iterator900) : Nat × Iterator900 :=
  match it.rem.dropWhile (fun p => p.2 = it.lvl) with
  | [] => (it.maxLevel, ⟨[], it.maxLevel, it.maxLevel⟩)
  | (_, l) :: rest => (l, ⟨rest, l, it.maxLevel⟩)

/-- The lockstep inner loop of `Collation_utf8mb4_uca_0900.Collate`
(the `for` loop under the `nextLevel` label), with the left iterator's
`Next` inlined by case analysis on its remaining stream so the recursion is
structural: advance both iterators while the weights are equal, both streams
are live, and both remain at `level`.  When the left stream is empty,
`lok = false` forces a break on that iteration.  Returns the final
`(l, lok, r, rok)` sample and both advanced iterators. -/
def runLevelAux (level maxL : Nat) :
    List (Nat × Nat) → Iterator900 → Nat × Bool × Nat × Bool × Iterator900 × Iterator900
  | [], itr =>
    match itNext itr with
    | (r, rok, itr') => (0, false, r, rok, ⟨[], maxL, maxL⟩, itr')
  | (w, l) :: rest, itr =>
    match itNext itr with
    | (r, rok, itr') =>
      if w = r ∧ rok = true ∧ l = level ∧ itr'.lvl = level then
        runLevelAux level maxL rest itr'
      else
        (w, true, r, rok, ⟨rest, l, maxL⟩, itr')

/-- The `nextLevel`-labelled `for` loop of the 900-variant `Collate`, acting
on the two iterator states. -/
def runLevel (level : Nat) (itl itr : Iterator900) :
    Nat × Bool × Nat × Bool × Iterator900 × Iterator900 :=
  runLevelAux level itl.maxLevel itl.rem itr

/-- The body of `Collation_utf8mb4_uca_0900.Collate` after iterator setup:
the `nextLevel` loop plus the `switch` on the break state, with the two
`goto nextLevel` jumps expressed as recursion on `fuel` (the source bounds
the number of jumps by the number of levels, so `Collate` passes
`levelsForCompare` as fuel; the fuel-exhaustion value is never reached on
streams produced by `Iterator`).  The second component of the result counts
how many times `SkipLevel` was invoked on the left iterator, an
instrumentation used to analyse the prefix path; the first component is the
value the Go function returns. -/
def collateOuter (levelsToCompare : Nat) ( rightIsPrefix : Bool) :
    Nat → Nat → Iterator900 → Iterator900 → Int × Nat
  | fuel, level, itl, itr =>
    match runLevel level itl itr with
    | (l, lok, r, rok, itl', itr') =>
      if itl'.lvl = itr'.lvl then
        if l = r ∧ lok = true ∧ rok = true then
          if level + 1 < levelsToCompare then
            match fuel with
            | 0 => (0, 0)
            | fuel' + 1 => collateOuter levelsToCompare rightIsPrefix fuel' (level + 1) itl' itr'
          else ((l : Int) - (r : Int), 0)
        else ((l : Int) - (r : Int), 0)
      else if itl'.lvl > level then (-1, 0)
      else if itr'.lvl > level then
        if rightIsPrefix then
          if (itSkipLevel itl').1 < levelsToCompare then
            match fuel with
            | 0 => (0, 1)
            | fuel' + 1 =>
              let res := collateOuter levelsToCompare rightIsPrefix fuel'
                (itSkipLevel itl').1 (itSkipLevel itl').2 itr'
              (res.1, res.2 + 1)
          else (- (r : Int), 1)
        else (1, 0)
      else ((l : Int) - (r : Int), 0)

/-- `Collation_utf8mb4_uca_0900.Collate(left, right, rightIsPrefix)` from the
Go source: lockstep multi-level weight comparison with prefix support. -/
def Collation_utf8mb4_uca_0900.Collate (c : Collation_utf8mb4_uca_0900)
    (left right : Str) ( rightIsPrefix : Bool) : Int :=
  (collateOuter c.levelsForCompare rightIsPrefix c.levelsForCompare 0
    (c.Iterator left) (c.Iterator right)).1

/-- The padding loop of the 900-variant `WeightString` under `performPadding`:
`for len(dst) < cap(dst) { dst = append(dst, 0x00) }`. -/
def padZeros (s : GoSlice) : GoSlice :=
  if s.data.length < s.cap then padZeros (goAppend s [0]) else s
termination_by s.cap - s.data.length
decreasing_by
  simp [goAppend]
  omega

/-- `Collation_utf8mb4_uca_0900.WeightString(dst, src, numCodepoints)` from
the Go source: append the full weight-byte stream (both the general per-weight
path and the fast chunk path produce exactly these bytes; per spec §4.4 the
chunked fast path is byte-identical to the general path, so the general path
is the one embedded), then pad the remaining capacity with zero bytes when
`numCodepoints` is the `PadToMax` sentinel. -/
def Collation_utf8mb4_uca_0900.WeightString (c : Collation_utf8mb4_uca_0900)
    (dst : GoSlice) (src : Str) (numCodepoints : Int) : GoSlice :=
  let dst1 := emitWeights dst ((levelStream c src).map Prod.fst)
  if numCodepoints = PadToMax then padZeros dst1 else dst1

/-- `Collation_utf8mb4_uca_0900.WeightStringLen(numBytes)` from the Go
source.  The `panic("WeightStringLen called with non-MOD4 length")` on a
length that is not a multiple of 4 is modelled as `none`; a normal return of
`v` is `some v`.  Lean's `%` and `/` on `Int` agree with Go's here: the
test `numBytes % 4 != 0` coincides for every rounding convention, and the
division `numBytes / 4` is only reached when `4` divides `numBytes`, where
all conventions give the same quotient. -/
def Collation_utf8mb4_uca_0900.WeightStringLen (c : Collation_utf8mb4_uca_0900)
    (numBytes : Int) : Option Int :=
  if numBytes % 4 ≠ 0 then none
  else
    let levels : Int := (c.levelsForCompare : Int)
    let weights : Int := numBytes / 4 * (c.maxCollationElementsPerCodepoint : Int) * levels
      + (levels - 1)
    some (weights * 2)

/-- Modelled from the spec (§3, §4.3): the legacy UCA collation.  The
`internal/uca` legacy iterator internals are not in the given sources; their
effect is modelled by `weights` (the single-level weight sequence the
iterator yields for an input, contraction- and tailoring-aware), `length`
(the iterator's `Length()`, the number of codepoints consumed), and
`weightForSpace` (the 16-bit weight of the space character used for
padding). -/
structure Collation_uca_legacy where
  weights : Str → List Nat
  length : Str → Nat
  weightForSpace : Nat

/-- Modelled from the spec (§4.3): the legacy iterator's `Next()`: one
weight per step from the single-level weight sequence, `(0, false)` at
exhaustion. -/
def legacyNext : List Nat → Nat × Bool × List Nat
  | [] => (0, false, [])
  | w :: rest => (w, true, rest)

/-- The comparison loop of `Collation_uca_legacy.Collate`, with `Next`
inlined by case analysis on the streams: while both streams are live and the
weights equal, advance (`if l == r && lok && rok { continue }`); when the
right stream is exhausted (`!rok`) and prefix semantics were requested,
return `0`; otherwise return the signed weight difference `int(l) - int(r)`
(an exhausted side contributes weight `0`). -/
def legacyCollateLoop ( isPrefix : Bool) : List Nat → List Nat → Int
  | l :: wl', r :: wr' =>
    if l = r then legacyCollateLoop isPrefix wl' wr'
    else (l : Int) - (r : Int)
  | wl, [] => if isPrefix then 0 else ((legacyNext wl).1 : Int)
  | [], r :: _ => (0 : Int) - (r : Int)

/-- `Collation_uca_legacy.Collate(left, right, isPrefix)` from the Go
source: single-level lockstep comparison with the prefix short-circuit. -/
def Collation_uca_legacy.Collate (c : Collation_uca_legacy)
    (left right : Str) ( isPrefix : Bool) : Int :=
  legacyCollateLoop isPrefix (c.weights left) (c.weights right)

/-- The `PadToMax` padding loop of the legacy `WeightString`:
`for len(dst)+1 < cap(dst) { dst = append(dst, w1, w2) };
if len(dst) < cap(dst) { dst = append(dst, w1) }`. -/
def padSpaceToCap (w1 w2 : Nat) (s : GoSlice) : GoSlice :=
  if s.data.length + 1 < s.cap then padSpaceToCap w1 w2 (goAppend s [w1, w2])
  else if s.data.length < s.cap then goAppend s [w1]
  else s
termination_by s.cap - s.data.length
decreasing_by
  simp [goAppend]
  omega

/-- The numeric padding loop of the legacy `WeightString`:
`for numCodepoints > 0 { dst = append(dst, w1, w2); numCodepoints-- }`. -/
def padSpaceCount (w1 w2 : Nat) (n : Int) (s : GoSlice) : GoSlice :=
  if 0 < n then padSpaceCount w1 w2 (n - 1) (goAppend s [w1, w2]) else s
termination_by n.toNat
decreasing_by
  omega

/-- `Collation_uca_legacy.WeightString(dst, src, numCodepoints)` from the Go
source: append the single-level weight bytes, then pad with the space weight
— up to capacity (possibly ending after only the high byte of the space
weight) for the `PadToMax` sentinel, or until the codepoint count consumed
plus pad units reaches `numCodepoints` for a positive count. -/
def Collation_uca_legacy.WeightString (c : Collation_uca_legacy)
    (dst : GoSlice) (src : Str) (numCodepoints : Int) : GoSlice :=
  let dst1 := emitWeights dst (c.weights src)
  if 0 < numCodepoints then
    let w1 := hiByte c.weightForSpace
    let w2 := loByte c.weightForSpace
    if numCodepoints = PadToMax then padSpaceToCap w1 w2 dst1
    else padSpaceCount w1 w2 (numCodepoints - (c.length src : Int)) dst1
  else dst1


/-! ### Closed forms for the byte-emission and padding loops -/

theorem weightBytes_length (ws : List Nat) : (weightBytes ws).length = 2 * ws.length := by
  induction ws with
  | nil => simp [weightBytes]
  | cons w ws ih =>
    simp [weightBytes] at ih ⊢
    omega

theorem emitWeights_eq (ws : List Nat) (s : GoSlice) (h : s.data.length ≤ s.cap) :
    emitWeights s ws = ⟨s.data ++ weightBytes ws, max s.cap (s.data.length + 2 * ws.length)⟩ := by
  induction ws generalizing s with
  | nil =>
    obtain ⟨d, c⟩ := s
    simp [emitWeights, weightBytes]
    simp at h
    omega
  | cons w ws ih =>
    obtain ⟨d, c⟩ := s
    simp at h
    show emitWeights (goAppend ⟨d, c⟩ [hiByte w, loByte w]) ws = _
    rw [ih (goAppend ⟨d, c⟩ [hiByte w, loByte w]) (by simp [goAppend])]
    simp [goAppend, weightBytes]
    omega

theorem padZeros_eq : ∀ (n : Nat) (s : GoSlice), s.cap - s.data.length = n →
    padZeros s = ⟨s.data ++ List.replicate n 0, s.cap⟩ := by
  intro n
  induction n using Nat.strong_induction_on with
  | _ n IH =>
    rintro ⟨d, c⟩ hn
    simp at hn
    rw [padZeros]
    by_cases h : d.length < c
    · have happ : goAppend ⟨d, c⟩ [0] = ⟨d ++ [0], c⟩ := by
        simp [goAppend]
        omega
      rw [if_pos (by simpa using h), happ,
        IH (n - 1) (by omega) ⟨d ++ [0], c⟩ (by simp; omega)]
      obtain ⟨m, rfl⟩ : ∃ m, n = m + 1 := ⟨n - 1, by omega⟩
      simp [List.replicate_succ]
    · rw [if_neg (by simpa using h)]
      obtain rfl : n = 0 := by omega
      simp

/-- The byte pattern the legacy `PadToMax` padding loop appends when `m`
bytes of capacity remain: space-weight byte pairs, with a final lone high
byte when `m` is odd. -/
def spacePadList (w1 w2 : Nat) : Nat → List Nat
  | 0 => []
  | 1 => [w1]
  | m + 2 => w1 :: w2 :: spacePadList w1 w2 m

theorem spacePadList_length (w1 w2 : Nat) (m : Nat) :
    (spacePadList w1 w2 m).length = m := by
  induction m using Nat.strong_induction_on with
  | _ m IH =>
    match m with
    | 0 => simp [spacePadList]
    | 1 => simp [spacePadList]
    | m + 2 => simp [spacePadList, IH m (by omega)]

theorem padSpaceToCap_eq (w1 w2 : Nat) : ∀ (n : Nat) (s : GoSlice),
    s.cap - s.data.length = n →
    padSpaceToCap w1 w2 s = ⟨s.data ++ spacePadList w1 w2 n, s.cap⟩ := by
  intro n
  induction n using Nat.strong_induction_on with
  | _ n IH =>
    rintro ⟨d, c⟩ hn
    simp at hn
    rw [padSpaceToCap]
    by_cases h : d.length + 1 < c
    · have happ : goAppend ⟨d, c⟩ [w1, w2] = ⟨d ++ [w1, w2], c⟩ := by
        simp [goAppend]
        omega
      rw [if_pos (by simpa using h), happ,
        IH (n - 2) (by omega) ⟨d ++ [w1, w2], c⟩ (by simp; omega)]
      obtain ⟨m, rfl⟩ : ∃ m, n = m + 2 := ⟨n - 2, by omega⟩
      simp [spacePadList]
    · rw [if_neg (by simpa using h)]
      by_cases h2 : d.length < c
      · obtain rfl : n = 1 := by omega
        rw [if_pos (by simpa using h2)]
        simp [goAppend, spacePadList]
        omega
      · rw [if_neg (by simpa using h2)]
        obtain rfl : n = 0 := by omega
        simp [spacePadList]

theorem padSpaceCount_data (w1 w2 : Nat) : ∀ (k : Nat) (n : Int) (s : GoSlice),
    n.toNat = k →
    (padSpaceCount w1 w2 n s).data = s.data ++ (List.replicate k [w1, w2]).flatten := by
  intro k
  induction k with
  | zero =>
    intro n s hn
    rw [padSpaceCount, if_neg (by omega)]
    simp
  | succ k IH =>
    intro n s hn
    rw [padSpaceCount, if_pos (by omega)]
    rw [IH (n - 1) _ (by omega)]
    simp [goAppend, List.replicate_succ]

/-! ### Well-formedness of iterator streams

The emission stream built by `levelStream` has level tags that never
decrease and never jump by more than one per step, and ends one step below
the configured level count.  `stepsOK v rem M` states this for a stream
`rem` seen from current level `v` with configured level count `M`. -/

def stepsOK : Nat → List (Nat × Nat) → Nat → Prop
  | v, [], M => v ≤ M ∧ M ≤ v + 1
  | v, (_, t) :: rest, M => v ≤ t ∧ t ≤ v + 1 ∧ stepsOK t rest M

/-- Well-formedness of an iterator state: its remaining stream is tag-sane
with respect to its current level and configured level count. -/
def ItWF (it : Iterator900) : Prop := stepsOK it.lvl it.rem it.maxLevel

theorem stepsOK_map_weights (v M : Nat) (l : List Nat) (rest : List (Nat × Nat))
    (h : stepsOK v rest M) : stepsOK v (l.map (fun w => (w, v)) ++ rest) M := by
  induction l with
  | nil => simpa using h
  | cons w l ih => exact ⟨le_refl v, by omega, ih⟩

theorem stepsOK_range' (c : Collation_utf8mb4_uca_0900) (s : Str) :
    ∀ (k i : Nat), i + k = c.levelsForCompare →
    stepsOK i ((List.range' i k).flatMap (fun i =>
      (c.weights s i).map (fun w => (w, i)) ++
        (if i + 1 < c.levelsForCompare then [(0, i + 1)] else []))) c.levelsForCompare := by
  intro k
  induction k with
  | zero =>
    intro i hi
    simp [stepsOK]
    omega
  | succ k ih =>
    intro i hi
    rw [List.range'_succ]
    simp only [List.flatMap_cons, List.append_assoc]
    apply stepsOK_map_weights
    by_cases h : i + 1 < c.levelsForCompare
    · have hk : 0 < k := by omega
      rw [if_pos h]
      exact ⟨by omega, by omega, ih (i + 1) (by omega)⟩
    · obtain rfl : k = 0 := by omega
      rw [if_neg h]
      simp [stepsOK]
      omega

theorem Iterator_wf (c : Collation_utf8mb4_uca_0900) (s : Str) : ItWF (c.Iterator s) := by
  show stepsOK 0 (levelStream c s) c.levelsForCompare
  unfold levelStream
  rcases Nat.eq_zero_or_pos c.levelsForCompare with h0 | hpos
  · rw [h0]
    simp [stepsOK, h0]
  · rw [List.range_eq_range']
    exact stepsOK_range' c s c.levelsForCompare 0 (by omega)

theorem itNext_spec (it : Iterator900) (h : ItWF it) :
    ItWF (itNext it).2.2 ∧ it.lvl ≤ (itNext it).2.2.lvl ∧
      (itNext it).2.2.lvl ≤ it.lvl + 1 ∧ (itNext it).2.2.maxLevel = it.maxLevel := by
  unfold ItWF at h ⊢
  cases hrem : it.rem with
  | nil =>
    rw [hrem] at h
    obtain ⟨h1, h2⟩ := h
    simp [itNext, hrem, stepsOK]
    omega
  | cons p rest =>
    obtain ⟨w, t⟩ := p
    rw [hrem] at h
    obtain ⟨h1, h2, h3⟩ := h
    simp [itNext, hrem]
    exact ⟨h3, h1, h2⟩

theorem runLevelAux_spec (level maxL : Nat) :
    ∀ (reml : List (Nat × Nat)) (itr : Iterator900)
      (l r : Nat) (lok rok : Bool) (IL IR : Iterator900),
      stepsOK level reml maxL → ItWF itr → itr.lvl = level →
      runLevelAux level maxL reml itr = (l, lok, r, rok, IL, IR) →
      ItWF IL ∧ ItWF IR ∧ IL.maxLevel = maxL ∧ IR.maxLevel = itr.maxLevel ∧
        level ≤ IL.lvl ∧ IL.lvl ≤ level + 1 ∧ level ≤ IR.lvl ∧ IR.lvl ≤ level + 1 ∧
        ¬(l = r ∧ lok = true ∧ rok = true ∧ IL.lvl = level ∧ IR.lvl = level) := by
  intro reml
  induction reml with
  | nil =>
    intro itr l r lok rok IL IR hwl hwr hlr hrun
    obtain ⟨hr1, hr2, hr3, hr4⟩ := itNext_spec itr hwr
    rw [runLevelAux] at hrun
    rcases hnext : itNext itr with ⟨r0, rok0, itr0⟩
    rw [hnext] at hr1 hr2 hr3 hr4
    simp only at hr1 hr2 hr3 hr4
    simp only [hnext, Prod.mk.injEq] at hrun
    obtain ⟨rfl, rfl, rfl, rfl, rfl, rfl⟩ := hrun
    simp only [stepsOK] at hwl
    refine ⟨?_, hr1, rfl, hr4, ?_, ?_, by omega, by omega, by simp⟩
    · show stepsOK maxL [] maxL
      simp [stepsOK]
    · show level ≤ maxL
      omega
    · show maxL ≤ level + 1
      omega
  | cons p rest ih =>
    obtain ⟨w, t⟩ := p
    intro itr l r lok rok IL IR hwl hwr hlr hrun
    obtain ⟨hr1, hr2, hr3, hr4⟩ := itNext_spec itr hwr
    rw [runLevelAux] at hrun
    rcases hnext : itNext itr with ⟨r0, rok0, itr0⟩
    rw [hnext] at hr1 hr2 hr3 hr4
    simp only at hr1 hr2 hr3 hr4
    simp only [hnext] at hrun
    simp only [stepsOK] at hwl
    obtain ⟨hw1, hw2, hw3⟩ := hwl
    by_cases hcond : w = r0 ∧ rok0 = true ∧ t = level ∧ itr0.lvl = level
    · rw [if_pos hcond] at hrun
      obtain ⟨rfl, -, rfl, hlvl⟩ := hcond
      obtain ⟨a1, a2, a3, a4, a5, a6, a7, a8, a9⟩ :=
        ih itr0 l r lok rok IL IR hw3 hr1 hlvl hrun
      exact ⟨a1, a2, a3, by rw [a4, hr4], a5, a6, a7, a8, a9⟩
    · rw [if_neg hcond] at hrun
      simp only [Prod.mk.injEq] at hrun
      obtain ⟨rfl, rfl, rfl, rfl, rfl, rfl⟩ := hrun
      refine ⟨hw3, hr1, rfl, hr4, hw1, hw2, by omega, by omega, ?_⟩
      rintro ⟨rfl, -, hrok, hl1, hl2⟩
      exact hcond ⟨rfl, hrok, hl1, hl2⟩

/-- Exchange the roles of the two operands in a `runLevel` break state. -/
def swapRes : (Nat × Bool × Nat × Bool × Iterator900 × Iterator900) →
    Nat × Bool × Nat × Bool × Iterator900 × Iterator900
  | (l, lok, r, rok, a, b) => (r, rok, l, lok, b, a)

theorem runLevelAux_swap (level : Nat) :
    ∀ (reml : List (Nat × Nat)) (maxL lvlL : Nat) (itr : Iterator900),
      runLevelAux level itr.maxLevel itr.rem ⟨reml, lvlL, maxL⟩ =
        swapRes (runLevelAux level maxL reml itr) := by
  intro reml
  induction reml with
  | nil =>
    intro maxL lvlL itr
    cases hrem : itr.rem with
    | nil =>
      rw [runLevelAux, runLevelAux]
      simp [itNext, hrem, swapRes]
    | cons p rest =>
      obtain ⟨w2, t2⟩ := p
      rw [runLevelAux, runLevelAux]
      simp [itNext, hrem, swapRes]
  | cons p rest ih =>
    obtain ⟨w, t⟩ := p
    intro maxL lvlL itr
    cases hrem : itr.rem with
    | nil =>
      rw [runLevelAux, runLevelAux]
      simp [itNext, hrem, swapRes]
    | cons q rest2 =>
      obtain ⟨w2, t2⟩ := q
      rw [runLevelAux, runLevelAux]
      simp only [itNext, hrem]
      by_cases hc : w = w2 ∧ t = level ∧ t2 = level
      · rw [if_pos ⟨hc.1.symm, trivial, hc.2.2, hc.2.1⟩, if_pos ⟨hc.1, trivial, hc.2.1, hc.2.2⟩]
        have := ih maxL t ⟨rest2, t2, itr.maxLevel⟩
        simpa using this
      · rw [if_neg (fun h => hc ⟨h.1.symm, h.2.2.2, h.2.2.1⟩),
           if_neg (fun h => hc ⟨h.1, h.2.2.1, h.2.2.2⟩)]
        simp [swapRes]

theorem runLevel_swap (level : Nat) (itl itr : Iterator900) :
    runLevel level itr itl = swapRes (runLevel level itl itr) :=
  runLevelAux_swap level itl.rem itl.maxLevel itl.lvl itr

theorem runLevel_spec (level : Nat) (itl itr : Iterator900)
    (l r : Nat) (lok rok : Bool) (IL IR : Iterator900)
    (hwl : ItWF itl) (hwr : ItWF itr) (hll : itl.lvl = level) (hrl : itr.lvl = level)
    (hrun : runLevel level itl itr = (l, lok, r, rok, IL, IR)) :
    ItWF IL ∧ ItWF IR ∧ IL.maxLevel = itl.maxLevel ∧ IR.maxLevel = itr.maxLevel ∧
      level ≤ IL.lvl ∧ IL.lvl ≤ level + 1 ∧ level ≤ IR.lvl ∧ IR.lvl ≤ level + 1 ∧
      ¬(l = r ∧ lok = true ∧ rok = true ∧ IL.lvl = level ∧ IR.lvl = level) :=
  runLevelAux_spec level itl.maxLevel itl.rem itr l r lok rok IL IR (hll ▸ hwl) hwr hrl hrun

theorem collateOuter_sign (L : Nat) :
    ∀ (fuel : Nat) (level : Nat) (itl itr : Iterator900),
      ItWF itl → ItWF itr → itl.lvl = level → itr.lvl = level →
      Int.sign (collateOuter L false fuel level itl itr).1 =
        - Int.sign (collateOuter L false fuel level itr itl).1 := by
  intro fuel
  induction fuel using Nat.strong_induction_on with
  | _ fuel IH =>
    intro level itl itr hwl hwr hll hrl
    rcases hE : runLevel level itl itr with ⟨l, lok, r, rok, IL, IR⟩
    obtain ⟨hILwf, hIRwf, hILmax, hIRmax, hIL1, hIL2, hIR1, hIR2, hbreak⟩ :=
      runLevel_spec level itl itr l r lok rok IL IR hwl hwr hll hrl hE
    have hE2 : runLevel level itr itl = (r, rok, l, lok, IR, IL) := by
      rw [runLevel_swap, hE]
      rfl
    rw [collateOuter, collateOuter]
    simp only [hE, hE2]
    by_cases hA : IL.lvl = IR.lvl
    · simp only [if_pos hA, if_pos hA.symm]
      by_cases hEq : l = r ∧ lok = true ∧ rok = true
      · have hEq2 : r = l ∧ rok = true ∧ lok = true := ⟨hEq.1.symm, hEq.2.2, hEq.2.1⟩
        simp only [if_pos hEq, if_pos hEq2]
        by_cases hlt : level + 1 < L
        · simp only [if_pos hlt]
          have hnotboth : ¬(IL.lvl = level ∧ IR.lvl = level) := fun h =>
            hbreak ⟨hEq.1, hEq.2.1, hEq.2.2, h.1, h.2⟩
          have hlvls : IL.lvl = level + 1 ∧ IR.lvl = level + 1 := by
            by_cases hc : IL.lvl = level
            · exact absurd ⟨hc, by omega⟩ hnotboth
            · constructor <;> omega
          cases fuel with
          | zero => simp
          | succ f =>
            exact IH f (by omega) (level + 1) IL IR hILwf hIRwf hlvls.1 hlvls.2
        · simp only [if_neg hlt]
          obtain ⟨rfl, -, -⟩ := hEq
          simp
      · have hEq2 : ¬(r = l ∧ rok = true ∧ lok = true) := fun h => hEq ⟨h.1.symm, h.2.2, h.2.1⟩
        simp only [if_neg hEq, if_neg hEq2]
        show ((l : Int) - r).sign = -((r : Int) - (l : Int)).sign
        have hneg : (r : Int) - l = -((l : Int) - r) := by ring
        rw [hneg, Int.sign_neg, neg_neg]
    · simp only [if_neg hA, if_neg (show ¬ IR.lvl = IL.lvl from fun h => hA h.symm)]
      by_cases hB : IL.lvl > level
      · have hC : ¬ IR.lvl > level := by omega
        simp only [if_pos hB, if_neg hC]
        simp
      · by_cases hC : IR.lvl > level
        · simp only [if_neg hB, if_pos hC]
          simp
        · exfalso
          omega

/-! ### Concrete collation instances used for counterexamples and witnesses -/

/-- A single-level 900-variant collation whose weight for each input byte is
the byte itself. -/
def uca0900Example : Collation_utf8mb4_uca_0900 :=
  ⟨1, 8, fun s i => if i = 0 then s else []⟩

/-- A two-level 900-variant collation with an empty weight table, used to
exercise `WeightStringLen`. -/
def uca0900Example2 : Collation_utf8mb4_uca_0900 :=
  ⟨2, 8, fun _ _ => []⟩

/-- A legacy collation whose weight sequence is the input itself and whose
space weight is `0x0209 = 521` (high byte 2, low byte 9). -/
def ucaLegacyExample : Collation_uca_legacy :=
  ⟨fun s => s, fun s => s.length, 521⟩

/-! ### C1 -/

/-- C1 (amended): the 900-variant `Collate` is antisymmetric in sign:
`sign(Collate(a, b, false)) = -sign(Collate(b, a, false))` for all `a, b`.
(The claim's literal equation `Collate(a, b, false) = -sign(Collate(b, a, false))`
fails because `Collate` returns the raw weight difference, whose magnitude
can exceed 1.) -/
theorem Collate_sign_antisymm (c : Collation_utf8mb4_uca_0900) (a b : Str) :
    Int.sign (c.Collate a b false) = - Int.sign (c.Collate b a false) :=
  collateOuter_sign c.levelsForCompare c.levelsForCompare 0 (c.Iterator a) (c.Iterator b)
    (Iterator_wf c a) (Iterator_wf c b) rfl rfl

/-- C1 counterexample: with weights 5 versus 3 at the first position,
`Collate(a, b, false)` is the raw difference `2`, while
`-sign(Collate(b, a, false)) = -sign(-2) = 1`, so the claim's literal
equation `Collate(a, b, false) = -sign(Collate(b, a, false))` is false. -/
theorem Collate_antisymm_counterexample :
    uca0900Example.Collate [5] [3] false = 2 ∧
      - Int.sign (uca0900Example.Collate [3] [5] false) = 1 ∧ (2 : Int) ≠ 1 := by
  decide

/-! ### C3 -/

/-- C3 counterexample: with `rightIsPrefix = true`, left operand `[5]`
(weights `[5]`) and right operand `[5, 7]` (weights `[5, 7]`), the left
operand runs out of weights at level 0 while the right still produces the
weight `7` — the claim's "left-exhausted/right-continuing" situation.  The
code returns the hard inequality `-1` and never invokes `SkipLevel`
(invocation count `0`), not the `-int(r) = -7` sentinel the claim
describes. -/
theorem collate_prefix_left_exhausted_counterexample :
    collateOuter 1 true 1 0 (uca0900Example.Iterator [5]) (uca0900Example.Iterator [5, 7])
        = (-1, 0) ∧
      uca0900Example.Collate [5] [5, 7] true = -1 ∧ ((-1 : Int) ≠ -7 ∧ (0 : Nat) ≠ 1) := by
  decide

/-- C3 (amended): in the 900-variant `Collate` with `rightIsPrefix = true`,
whenever a right-exhausted/left-continuing situation occurs at a given level
(the right operand crosses the level boundary while the left operand is
still producing weights at that level — the levels differ, the left
iterator's level has not passed `level`, the right iterator's has), the code
invokes `SkipLevel` on the left iterator (the invocation count rises by
one); if the resulting level index is not below `levelsForCompare` (no
further distinguishing data exists), the call returns the
negative-of-remaining-weight sentinel `-int(r)` instead of a hard
inequality, and otherwise comparison continues at the skipped-to level. -/
theorem collate_prefix_right_exhausted (L fuel level : Nat) (itl itr : Iterator900)
    (l r : Nat) (lok rok : Bool) (IL IR : Iterator900)
    (hrun : runLevel level itl itr = (l, lok, r, rok, IL, IR))
    (hA : ¬ IL.lvl = IR.lvl) (hB : ¬ IL.lvl > level) (hC : IR.lvl > level) :
    collateOuter L true (fuel + 1) level itl itr =
      (if (itSkipLevel IL).1 < L then
        ((collateOuter L true fuel (itSkipLevel IL).1 (itSkipLevel IL).2 IR).1,
         (collateOuter L true fuel (itSkipLevel IL).1 (itSkipLevel IL).2 IR).2 + 1)
       else (- (r : Int), 1)) := by
  rw [collateOuter]
  simp only [hrun, if_neg hA, if_neg hB, if_pos hC, if_pos rfl]
  by_cases hs : (itSkipLevel IL).1 < L
  · simp only [if_pos hs]
    simp
  · simp only [if_neg hs]
    simp

/-- Witness for C3 (amended): left `[5, 7]`, right `[5]` under the
single-level example collation hit the right-exhausted/left-continuing case
at level 0 with remaining right weight `r = 0`. -/
theorem collate_prefix_right_exhausted_witness :
    collateOuter 1 true 1 0 (uca0900Example.Iterator [5, 7]) (uca0900Example.Iterator [5]) =
      (if (itSkipLevel ⟨[], 0, 1⟩).1 < 1 then
        ((collateOuter 1 true 0 (itSkipLevel ⟨[], 0, 1⟩).1 (itSkipLevel ⟨[], 0, 1⟩).2 ⟨[], 1, 1⟩).1,
         (collateOuter 1 true 0 (itSkipLevel ⟨[], 0, 1⟩).1 (itSkipLevel ⟨[], 0, 1⟩).2 ⟨[], 1, 1⟩).2 + 1)
       else (- ((0 : Nat) : Int), 1)) :=
  collate_prefix_right_exhausted 1 0 0 (uca0900Example.Iterator [5, 7])
    (uca0900Example.Iterator [5]) 7 0 true false ⟨[], 0, 1⟩ ⟨[], 1, 1⟩
    (by decide) (by decide) (by decide) (by decide)

/-! ### C4 -/

theorem legacyCollateLoop_append_self (wb t : List Nat) :
    legacyCollateLoop true (wb ++ t) wb = 0 := by
  induction wb with
  | nil =>
    cases t with
    | nil => rfl
    | cons x t => rfl
  | cons w wb ih =>
    show legacyCollateLoop true (w :: (wb ++ t)) (w :: wb) = 0
    rw [legacyCollateLoop, if_pos rfl]
    exact ih

/-- C4 (amended): the legacy `Collate` with `isPrefix = true` returns `0`
whenever the right operand's weight stream is exhausted while all weights
produced so far were equal (the right weight stream is a prefix of the left
one); when instead the left stream is exhausted first, no prefix
short-circuit applies. -/
theorem legacy_collate_right_prefix (c : Collation_uca_legacy) (a b : Str)
    (h : List.IsPrefix (c.weights b) (c.weights a)) :
    c.Collate a b true = 0 := by
  obtain ⟨t, ht⟩ := h
  unfold Collation_uca_legacy.Collate
  rw [← ht]
  exact legacyCollateLoop_append_self (c.weights b) t

/-- Witness for C4 (amended): right weights `[5]` are a prefix of left
weights `[5, 7]`, so the prefix comparison returns `0`. -/
theorem legacy_collate_right_prefix_witness :
    ucaLegacyExample.Collate [5, 7] [5] true = 0 :=
  legacy_collate_right_prefix ucaLegacyExample [5, 7] [5] ⟨[7], rfl⟩

/-- C4 counterexample: with `isPrefix = true`, left operand `[]` (weights
exhausted immediately) and right operand `[5]` still producing, all weights
produced so far (none) were equal, yet the legacy `Collate` returns `-5`,
not the `0` the claim's "one side's weight stream is exhausted" wording
requires. -/
theorem legacy_collate_prefix_counterexample :
    ucaLegacyExample.Collate [] [5] true = -5 ∧ (-5 : Int) ≠ 0 := by
  decide

/-! ### C7 and C8 -/

/-- C7: the modern `WeightStringLen` panics (returns no value, modelled as
`none`) exactly when `numBytes` is not a multiple of 4, and returns normally
(`some`) exactly on multiples of 4. -/
theorem WeightStringLen_mod4 (c : Collation_utf8mb4_uca_0900) (n : Int) :
    (c.WeightStringLen n = none ↔ ¬ (4 : Int) ∣ n) ∧
      ((c.WeightStringLen n).isSome ↔ (4 : Int) ∣ n) := by
  unfold Collation_utf8mb4_uca_0900.WeightStringLen
  by_cases h : n % 4 = 0
  · have hdvd : (4 : Int) ∣ n := Int.dvd_of_emod_eq_zero h
    simp [h, hdvd]
  · have hdvd : ¬ (4 : Int) ∣ n := fun hd => h (Int.emod_eq_zero_of_dvd hd)
    simp [h, hdvd]

theorem weightStringLen_mult4 (c : Collation_utf8mb4_uca_0900) (n : Int)
    (h : (4 : Int) ∣ n) :
    c.WeightStringLen n =
      some (n / 4 * (c.maxCollationElementsPerCodepoint : Int) * (c.levelsForCompare : Int) * 2
        + ((c.levelsForCompare : Int) - 1) * 2) := by
  unfold Collation_utf8mb4_uca_0900.WeightStringLen
  rw [if_neg (by simpa using Int.emod_eq_zero_of_dvd h)]
  simp only [Option.some.injEq]
  ring

/-- C8 (amended): on a multiple of 4, the modern `WeightStringLen` returns
the bound built from the worst-case collation elements per 4-byte unit and
the compared level count, with one level-separator *weight* — two bytes —
counted between each pair of levels: `2*(levelsForCompare - 1)` separator
bytes in total, not `levelsForCompare - 1`. -/
theorem WeightStringLen_value (c : Collation_utf8mb4_uca_0900) (n : Int)
    (h : (4 : Int) ∣ n) :
    c.WeightStringLen n =
      some (n / 4 * (c.maxCollationElementsPerCodepoint : Int) * (c.levelsForCompare : Int) * 2
        + ((c.levelsForCompare : Int) - 1) * 2) :=
  weightStringLen_mult4 c n h

/-- Witness for C8 (amended): with 2 levels and 8 worst-case elements per
unit, `WeightStringLen 8` returns `2*8*2*2 + 1*2 = 66`. -/
theorem WeightStringLen_value_witness :
    uca0900Example2.WeightStringLen 8 = some 66 := by
  have h := WeightStringLen_value uca0900Example2 8 ⟨2, by norm_num⟩
  simpa [uca0900Example2] using h

/-- C8 counterexample: for 2 levels, worst-case element count 8 and input
length 8, the code returns `((8/4)*8*2 + (2-1)) * 2 = 66`; the claim's
accounting — weight bytes `(8/4)*8*2*2 = 64` plus `levelsForCompare - 1 = 1`
separator *bytes* — predicts `65`. -/
theorem WeightStringLen_separator_bytes_counterexample :
    uca0900Example2.WeightStringLen 8 = some 66 ∧
      (66 : Int) ≠ 8 / 4 * 8 * 2 * 2 + (2 - 1) := by
  decide

/-! ### WeightString branch lemmas -/

theorem emitWeights_data (ws : List Nat) (s : GoSlice) :
    (emitWeights s ws).data = s.data ++ weightBytes ws := by
  induction ws generalizing s with
  | nil => simp [emitWeights, weightBytes]
  | cons w ws ih =>
    show (emitWeights (goAppend s [hiByte w, loByte w]) ws).data = _
    rw [ih]
    simp [goAppend, weightBytes]

theorem WeightString900_padToMax (c : Collation_utf8mb4_uca_0900) (dst : GoSlice) (src : Str) :
    c.WeightString dst src PadToMax =
      padZeros (emitWeights dst ((levelStream c src).map Prod.fst)) := by
  unfold Collation_utf8mb4_uca_0900.WeightString
  simp

theorem WeightString900_nonPad (c : Collation_utf8mb4_uca_0900) (dst : GoSlice) (src : Str)
    (nc : Int) (hnc : nc ≠ PadToMax) :
    c.WeightString dst src nc = emitWeights dst ((levelStream c src).map Prod.fst) := by
  unfold Collation_utf8mb4_uca_0900.WeightString
  simp [hnc]

theorem WeightStringLegacy_padToMax (cl : Collation_uca_legacy) (dst : GoSlice) (src : Str) :
    cl.WeightString dst src PadToMax =
      padSpaceToCap (hiByte cl.weightForSpace) (loByte cl.weightForSpace)
        (emitWeights dst (cl.weights src)) := by
  unfold Collation_uca_legacy.WeightString
  norm_num [PadToMax]

theorem WeightStringLegacy_numeric (cl : Collation_uca_legacy) (dst : GoSlice) (src : Str)
    (nc : Int) (h0 : 0 < nc) (hnc : nc ≠ PadToMax) :
    cl.WeightString dst src nc =
      padSpaceCount (hiByte cl.weightForSpace) (loByte cl.weightForSpace)
        (nc - (cl.length src : Int)) (emitWeights dst (cl.weights src)) := by
  unfold Collation_uca_legacy.WeightString
  simp [h0, hnc]

theorem WeightStringLegacy_nonPos (cl : Collation_uca_legacy) (dst : GoSlice) (src : Str)
    (nc : Int) (h0 : ¬ 0 < nc) :
    cl.WeightString dst src nc = emitWeights dst (cl.weights src) := by
  unfold Collation_uca_legacy.WeightString
  simp [h0]

/-! ### C5 -/

/-- C5 (amended): with the `PadToMax` sentinel, the modern variant fills all
remaining destination capacity after the real weight bytes with zero bytes,
but the legacy variant fills it with the 16-bit *space weight* repeated
(high byte, low byte, high byte, ...), ending on a lone high byte when an
odd number of bytes remains — not with zero bytes.  (`numCodepoints = 0`
selects the unpadded result of each variant.) -/
theorem padToMax_zero_fill_vs_space_fill (c : Collation_utf8mb4_uca_0900)
    (cl : Collation_uca_legacy) (dst dstL : GoSlice) (src srcL : Str) :
    (c.WeightString dst src PadToMax).data =
      (c.WeightString dst src 0).data ++
        List.replicate
          ((c.WeightString dst src 0).cap - (c.WeightString dst src 0).data.length) 0 ∧
    (cl.WeightString dstL srcL PadToMax).data =
      (cl.WeightString dstL srcL 0).data ++
        spacePadList (hiByte cl.weightForSpace) (loByte cl.weightForSpace)
          ((cl.WeightString dstL srcL 0).cap - (cl.WeightString dstL srcL 0).data.length) := by
  constructor
  · rw [WeightString900_padToMax, WeightString900_nonPad c dst src 0 (by decide),
      padZeros_eq _ _ rfl]
  · rw [WeightStringLegacy_padToMax, WeightStringLegacy_nonPos cl dstL srcL 0 (by decide),
      padSpaceToCap_eq _ _ _ _ rfl]

/-- C5 counterexample: the legacy variant with space weight `0x0209`, empty
input and a destination of capacity 4 pads with `[2, 9, 2, 9]` — the space
weight's bytes — not with zero bytes. -/
theorem padToMax_zero_fill_counterexample :
    (ucaLegacyExample.WeightString ⟨[], 4⟩ [] PadToMax).data = [2, 9, 2, 9] ∧
      ([2, 9, 2, 9] : List Nat) ≠ [0, 0, 0, 0] := by
  constructor
  · rw [WeightStringLegacy_padToMax, padSpaceToCap_eq _ _ _ _ rfl]
    decide
  · decide

/-! ### C6 -/

/-- C6: with a positive `numCodepoints` that is not the `PadToMax` sentinel,
the legacy variant appends the 16-bit space weight repeatedly until the
padded codepoint count — codepoints consumed (`it.Length()`) plus pad units
— reaches `numCodepoints`, i.e. it appends `numCodepoints - Length()` space
weights; the modern variant applies no numeric padding at all and returns
exactly the weight bytes. -/
theorem numeric_padding_legacy_only (cl : Collation_uca_legacy)
    (c : Collation_utf8mb4_uca_0900) (dst dstM : GoSlice) (src srcM : Str) (n nM : Int)
    (h0 : 0 < n) (hs : n ≠ PadToMax) (h0M : 0 < nM) (hsM : nM ≠ PadToMax) :
    (cl.WeightString dst src n).data =
      dst.data ++ weightBytes (cl.weights src) ++
        (List.replicate (n - (cl.length src : Int)).toNat
          [hiByte cl.weightForSpace, loByte cl.weightForSpace]).flatten ∧
    (c.WeightString dstM srcM nM).data =
      dstM.data ++ weightBytes ((levelStream c srcM).map Prod.fst) := by
  constructor
  · rw [WeightStringLegacy_numeric cl dst src n h0 hs, padSpaceCount_data _ _ _ _ _ rfl,
      emitWeights_data]
  · rw [WeightString900_nonPad c dstM srcM nM hsM, emitWeights_data]

/-- Witness for C6: legacy input `[5]` (1 codepoint consumed) with
`numCodepoints = 3` appends two space weights; the modern variant with
`numCodepoints = 2` appends nothing beyond the weight bytes. -/
theorem numeric_padding_legacy_only_witness :
    (ucaLegacyExample.WeightString ⟨[], 0⟩ [5] 3).data =
      ([] : List Nat) ++ weightBytes (ucaLegacyExample.weights [5]) ++
        (List.replicate ((3 : Int) - ((ucaLegacyExample.length [5] : Nat) : Int)).toNat
          [hiByte ucaLegacyExample.weightForSpace, loByte ucaLegacyExample.weightForSpace]).flatten ∧
    (uca0900Example.WeightString ⟨[], 0⟩ [3] 2).data =
      ([] : List Nat) ++ weightBytes ((levelStream uca0900Example [3]).map Prod.fst) :=
  numeric_padding_legacy_only ucaLegacyExample uca0900Example ⟨[], 0⟩ ⟨[], 0⟩ [5] [3] 3 2
    (by decide) (by decide) (by decide) (by decide)

/-! ### C9 -/

/-- C9 counterexample: two calls with equal `src`, equal `numCodepoints` and
the same collation but different destination buffers return different
bytes: the destination's existing contents are a prefix of the output, so
the output is not independent of the supplied destination buffer. -/
theorem weightString_dst_dependence_counterexample :
    (uca0900Example.WeightString ⟨[], 0⟩ [3] 0).data = [0, 3] ∧
    (uca0900Example.WeightString ⟨[9], 1⟩ [3] 0).data = [9, 0, 3] ∧
    ([0, 3] : List Nat) ≠ [9, 0, 3] := by
  refine ⟨?_, ?_, by decide⟩
  · rw [WeightString900_nonPad _ _ _ _ (by decide), emitWeights_data]
    decide
  · rw [WeightString900_nonPad _ _ _ _ (by decide), emitWeights_data]
    decide

/-- C9 (amended): for both variants, `WeightString` is deterministic and its
output is the destination's existing contents followed by a suffix that is a
pure function of `(src, numCodepoints, collation)` and the destination's
spare capacity (the suffix equals the output on an empty destination with
the same spare capacity); under `PadToMax` the padding amount depends on
that spare capacity, so the output is not independent of the supplied
destination buffer. -/
theorem weightString_pure_suffix (c : Collation_utf8mb4_uca_0900)
    (cl : Collation_uca_legacy) (dst dstL : GoSlice) (src srcL : Str) (nc ncL : Int)
    (h : dst.data.length ≤ dst.cap) (hLe : dstL.data.length ≤ dstL.cap) :
    (c.WeightString dst src nc).data =
      dst.data ++ (c.WeightString ⟨[], dst.cap - dst.data.length⟩ src nc).data ∧
    (cl.WeightString dstL srcL ncL).data =
      dstL.data ++ (cl.WeightString ⟨[], dstL.cap - dstL.data.length⟩ srcL ncL).data := by
  constructor
  · by_cases hnc : nc = PadToMax
    · subst hnc
      rw [WeightString900_padToMax, WeightString900_padToMax,
        emitWeights_eq _ _ h, emitWeights_eq _ _ (by simp),
        padZeros_eq _ _ rfl, padZeros_eq _ _ rfl]
      simp only []
      have hcount :
          max dst.cap (dst.data.length + 2 * ((levelStream c src).map Prod.fst).length) -
            (dst.data.length + (weightBytes ((levelStream c src).map Prod.fst)).length) =
          max (dst.cap - dst.data.length)
              (0 + 2 * ((levelStream c src).map Prod.fst).length) -
            (0 + (weightBytes ((levelStream c src).map Prod.fst)).length) := by
        rw [weightBytes_length]
        omega
      simp only [List.length_append, hcount]
      simp
    · rw [WeightString900_nonPad c dst src nc hnc, WeightString900_nonPad c _ src nc hnc,
        emitWeights_data, emitWeights_data]
      simp
  · by_cases h0 : 0 < ncL
    · by_cases hnc : ncL = PadToMax
      · subst hnc
        rw [WeightStringLegacy_padToMax, WeightStringLegacy_padToMax,
          emitWeights_eq _ _ hLe, emitWeights_eq _ _ (by simp),
          padSpaceToCap_eq _ _ _ _ rfl, padSpaceToCap_eq _ _ _ _ rfl]
        simp only []
        have hcount :
            max dstL.cap (dstL.data.length + 2 * (cl.weights srcL).length) -
              (dstL.data.length + (weightBytes (cl.weights srcL)).length) =
            max (dstL.cap - dstL.data.length) (0 + 2 * (cl.weights srcL).length) -
              (0 + (weightBytes (cl.weights srcL)).length) := by
          rw [weightBytes_length]
          omega
        simp only [List.length_append, hcount]
        simp
      · rw [WeightStringLegacy_numeric cl dstL srcL ncL h0 hnc,
          WeightStringLegacy_numeric cl _ srcL ncL h0 hnc,
          padSpaceCount_data _ _ _ _ _ rfl, padSpaceCount_data _ _ _ _ _ rfl,
          emitWeights_data, emitWeights_data]
        simp
    · rw [WeightStringLegacy_nonPos cl dstL srcL ncL h0, WeightStringLegacy_nonPos cl _ srcL ncL h0,
        emitWeights_data, emitWeights_data]
      simp

/-- Witness for C9 (amended): concrete destinations with spare capacity 0
and 2 under both variants. -/
theorem weightString_pure_suffix_witness :
    (uca0900Example.WeightString ⟨[9], 1⟩ [3] 0).data =
      [9] ++ (uca0900Example.WeightString ⟨[], 0⟩ [3] 0).data ∧
    (ucaLegacyExample.WeightString ⟨[7], 3⟩ [5] PadToMax).data =
      [7] ++ (ucaLegacyExample.WeightString ⟨[], 2⟩ [5] PadToMax).data :=
  weightString_pure_suffix uca0900Example ucaLegacyExample ⟨[9], 1⟩ ⟨[7], 3⟩ [3] [5] 0 PadToMax
    (by decide) (by decide)

/-! ### C10 -/

/-- C10: for the legacy variant, `WeightString` with the `PadToMax` sentinel
and spare capacity beyond the emitted bytes returns a slice of length
exactly `cap(dst)`: it appends the 2-byte space weight repeatedly and, when
exactly one byte of capacity remains, only the high byte of the space
weight, so the result can end mid-weight (`spacePadList` ends on a lone
high byte for an odd remainder). -/
theorem legacy_padToMax_fills_cap (cl : Collation_uca_legacy) (dst : GoSlice) (src : Str)
    (h : dst.data.length + 2 * (cl.weights src).length < dst.cap) :
    (cl.WeightString dst src PadToMax).data =
      dst.data ++ weightBytes (cl.weights src) ++
        spacePadList (hiByte cl.weightForSpace) (loByte cl.weightForSpace)
          (dst.cap - (dst.data.length + 2 * (cl.weights src).length)) ∧
    (cl.WeightString dst src PadToMax).data.length = dst.cap := by
  have hcap : max dst.cap (dst.data.length + 2 * (cl.weights src).length) = dst.cap := by
    omega
  have h1 : (cl.WeightString dst src PadToMax).data =
      dst.data ++ weightBytes (cl.weights src) ++
        spacePadList (hiByte cl.weightForSpace) (loByte cl.weightForSpace)
          (dst.cap - (dst.data.length + 2 * (cl.weights src).length)) := by
    rw [WeightStringLegacy_padToMax, emitWeights_eq _ _ (by omega), hcap,
      padSpaceToCap_eq _ _ _ _ rfl]
    simp [weightBytes_length]
  refine ⟨h1, ?_⟩
  rw [h1]
  simp [weightBytes_length, spacePadList_length]
  omega

/-- Witness for C10: destination `[9]` with capacity 6 and one emitted
weight (2 bytes) leaves 3 spare bytes, padded as `[2, 9, 2]` — ending
mid-weight on the high byte — for a total length of exactly 6. -/
theorem legacy_padToMax_fills_cap_witness :
    (ucaLegacyExample.WeightString ⟨[9], 6⟩ [5] PadToMax).data = [9, 0, 5, 2, 9, 2] ∧
      (ucaLegacyExample.WeightString ⟨[9], 6⟩ [5] PadToMax).data.length = 6 := by
  have h := legacy_padToMax_fills_cap ucaLegacyExample ⟨[9], 6⟩ [5] (by decide)
  refine ⟨?_, h.2⟩
  rw [h.1]
  decide

/-! ### C2 -/

theorem levelStream_range'_length_le (c : Collation_utf8mb4_uca_0900) (s : Str) (B : Nat)
    (hB : ∀ i, (c.weights s i).length ≤ B) :
    ∀ (k i : Nat), i + k = c.levelsForCompare → 1 ≤ k →
    ((List.range' i k).flatMap (fun i =>
      (c.weights s i).map (fun w => (w, i)) ++
        (if i + 1 < c.levelsForCompare then [(0, i + 1)] else []))).length ≤
      k * B + (k - 1) := by
  intro k
  induction k with
  | zero => omega
  | succ k ih =>
    intro i hi _
    rw [List.range'_succ]
    simp only [List.flatMap_cons, List.length_append, List.length_map]
    by_cases h : i + 1 < c.levelsForCompare
    · have hk : 1 ≤ k := by omega
      have := ih (i + 1) (by omega) hk
      have hw := hB i
      rw [if_pos h]
      simp only [List.length_cons, List.length_nil]
      have hmul : (k + 1) * B = k * B + B := by ring
      omega
    · obtain rfl : k = 0 := by omega
      have hw := hB i
      rw [if_neg h]
      simp
      omega

theorem levelStream_length_le (c : Collation_utf8mb4_uca_0900) (s : Str) (B : Nat)
    (hB : ∀ i, (c.weights s i).length ≤ B) (hpos : 1 ≤ c.levelsForCompare) :
    (levelStream c s).length ≤ c.levelsForCompare * B + (c.levelsForCompare - 1) := by
  unfold levelStream
  rw [List.range_eq_range']
  exact levelStream_range'_length_le c s B hB c.levelsForCompare 0 (by omega) hpos

/-- C2: for a source whose byte length is a multiple of 4 (and a collation
with at least one compared level whose weight table emits at most
`(len(src)/4) * maxCollationElementsPerCodepoint` weights per level — the
worst-case density `WeightStringLen` budgets for), the modern
`WeightString(nil, src, PadToMax)` produces at most `WeightStringLen(len(src))`
bytes: the weight string never overflows the predicted capacity. -/
theorem weightString_le_weightStringLen (c : Collation_utf8mb4_uca_0900) (src : Str)
    (hL : 1 ≤ c.levelsForCompare)
    (h4 : src.length % 4 = 0)
    (hwf : ∀ i, (c.weights src i).length ≤
      src.length / 4 * c.maxCollationElementsPerCodepoint) :
    ∃ bound : Int, c.WeightStringLen (src.length : Int) = some bound ∧
      ((c.WeightString ⟨[], 0⟩ src PadToMax).data.length : Int) ≤ bound := by
  have hdvd : (4 : Int) ∣ (src.length : Int) := by
    have : (4 : Nat) ∣ src.length := Nat.dvd_of_mod_eq_zero h4
    exact_mod_cast Int.natCast_dvd_natCast.mpr this
  refine ⟨_, weightStringLen_mult4 c (src.length : Int) hdvd, ?_⟩
  have hlen : (c.WeightString ⟨[], 0⟩ src PadToMax).data.length =
      2 * (levelStream c src).length := by
    rw [WeightString900_padToMax, emitWeights_eq _ _ (by simp), padZeros_eq _ _ rfl]
    simp [weightBytes_length]
  rw [hlen]
  have hbound := levelStream_length_le c src
    (src.length / 4 * c.maxCollationElementsPerCodepoint) hwf hL
  have hnat : 2 * (levelStream c src).length ≤
      (src.length / 4 * c.maxCollationElementsPerCodepoint * c.levelsForCompare
        + (c.levelsForCompare - 1)) * 2 := by
    have : c.levelsForCompare * (src.length / 4 * c.maxCollationElementsPerCodepoint) =
        src.length / 4 * c.maxCollationElementsPerCodepoint * c.levelsForCompare := by
      ring
    omega
  calc ((2 * (levelStream c src).length : Nat) : Int)
      ≤ ((src.length / 4 * c.maxCollationElementsPerCodepoint * c.levelsForCompare
          + (c.levelsForCompare - 1)) * 2 : Nat) := by exact_mod_cast hnat
    _ = (src.length : Int) / 4 * (c.maxCollationElementsPerCodepoint : Int)
          * (c.levelsForCompare : Int) * 2 + ((c.levelsForCompare : Int) - 1) * 2 := by
        push_cast [Nat.cast_sub hL, Int.ofNat_tdiv]
        ring

/-- Witness for C2: the two-level example collation with an empty weight
table and a 4-byte source. -/
theorem weightString_le_weightStringLen_witness :
    ∃ bound : Int, uca0900Example2.WeightStringLen (([1, 2, 3, 4] : Str).length : Int)
        = some bound ∧
      ((uca0900Example2.WeightString ⟨[], 0⟩ [1, 2, 3, 4] PadToMax).data.length : Int) ≤ bound :=
  weightString_le_weightStringLen uca0900Example2 [1, 2, 3, 4] (by decide) (by decide)
    (fun i => by simp [uca0900Example2])
